import Mathlib

/-
Verification development for the duplicate-name resolution core
(src/opt/index.ts of the duplicates repository).

The TypeScript source is shallowly embedded:
* Source text and the external parse/print collaborator (spec section 6)
  are modelled by working directly on syntax trees: a module's text is its
  tree, so text equality of the spec is tree equality here.
* node:path (POSIX) string manipulation is reimplemented below
  (splitPathSegs, pathNormalize, parseDir, stripExt, joinPath,
  posixDirname, resolvePath).  The model is faithful for paths without
  trailing slashes and for absolute containing files, which is the domain
  this system uses (see the repository test: files live under /project).
* The JavaScript Map from names to Set-of-objects used by the collector
  (src/opt/index.ts lines 490-523) is modelled by an association list from
  a name to the list of inserted file strings: a JS Set holds object
  references, and the code inserts a fresh object literal per occurrence,
  so insertion never deduplicates; the list of insertions is the exact
  model of that Set, and its length is the Set's size.
* The artificial wait(..) pacing delays around logging are not functional
  (spec section 9) and are not modelled.
-/

namespace Dup

/-! ## POSIX path model (node:path as used by src/opt/index.ts) -/

/-- Split a character list on the separator character, like
JavaScript's split: the empty list yields one empty chunk. -/
def splitChars : List Char → List (List Char)
  | [] => [[]]
  | c :: cs =>
    let rest := splitChars cs
    if c = '/' then [] :: rest
    else
      match rest with
      | [] => [[c]]
      | s :: tail => (c :: s) :: tail

/-- Split a path string into its slash-separated segments. -/
def splitPathSegs (s : String) : List String :=
  (splitChars s.toList).map String.mk

/-- Join segments with slashes (inverse of splitting on clean input). -/
def joinSegs : List String → String
  | [] => ""
  | [s] => s
  | s :: rest => s ++ "/" ++ joinSegs rest

/-- Render an absolute path from resolved segments. -/
def absOfSegs (segs : List String) : String :=
  "/" ++ joinSegs segs

/-- Does the string start with the given character? -/
def headIs (s : String) (c : Char) : Bool :=
  s.toList.head? = some c

/-- One step of absolute-path segment normalization: empty and
single-dot segments vanish, a dot-dot segment pops, anything else is
kept. -/
def normStep (st : List String) (seg : String) : List String :=
  if seg = "" ∨ seg = "." then st
  else if seg = ".." then st.dropLast
  else st ++ [seg]

/-- One step of relative-path normalization, where leading dot-dot
segments are retained (node path.normalize on relative paths). -/
def relNormStep (st : List String) (seg : String) : List String :=
  if seg = "" ∨ seg = "." then st
  else if seg = ".." then
    match st.getLast? with
    | none => [".."]
    | some l => if l = ".." then st ++ [".."] else st.dropLast
  else st ++ [seg]

/-- node path.normalize (POSIX), for paths without trailing slashes. -/
def pathNormalize (p : String) : String :=
  if headIs p '/' then absOfSegs ((splitPathSegs p).foldl normStep [])
  else
    let out := (splitPathSegs p).foldl relNormStep []
    if out = [] then "." else joinSegs out

/-- node path.parse(p).dir. -/
def parseDir (p : String) : String :=
  let chunks := splitPathSegs p
  if chunks.length ≤ 1 then ""
  else
    let d := joinSegs chunks.dropLast
    if d = "" ∧ headIs p '/' then "/" else d

/-- Index of the last occurrence of a character in a list. -/
def lastIdxOf (c : Char) (l : List Char) : Option Nat :=
  match l.reverse.findIdx? (· = c) with
  | none => none
  | some j => some (l.length - 1 - j)

/-- Strip the extension from a basename, following node path.parse:
the extension starts at the last dot provided it is not the first
character; a bare dot-dot basename is its own name. -/
def stripExt (b : String) : String :=
  if b = ".." then ".."
  else
    match lastIdxOf '.' b.toList with
    | none => b
    | some 0 => b
    | some i => String.mk (b.toList.take i)

/-- node path.parse(p).name: basename without extension. -/
def parseName (p : String) : String :=
  stripExt ((splitPathSegs p).getLastD "")

/-- node path.join of two parts (POSIX): empty parts are dropped, the
rest are joined and normalized. -/
def joinPath (a b : String) : String :=
  let parts := [a, b].filter (· ≠ "")
  if parts = [] then "." else pathNormalize (joinSegs parts)

/-- node path.dirname (POSIX), for paths without trailing slashes. -/
def posixDirname (p : String) : String :=
  let chunks := splitPathSegs p
  if chunks.length ≤ 1 then "."
  else
    let d := joinSegs chunks.dropLast
    if d = "" then (if headIs p '/' then "/" else ".") else d

/-- node path.resolve(base, spec) for an absolute base directory: an
absolute spec stands alone, otherwise it is appended to the base, and
the segments are normalized into an absolute path. -/
def resolvePath (base spec : String) : String :=
  let full := if headIs spec '/' then spec else base ++ "/" ++ spec
  absOfSegs ((splitPathSegs full).foldl normStep [])

/-- normalizePathKey from src/opt/index.ts lines 94-101: strip the
extension; if the basename is the conventional index name, keep only the
directory; normalize. -/
def normalizePathKey (filePath : String) : String :=
  let name := parseName filePath
  let dir := parseDir filePath
  let noExt := if name = "index" then dir else joinPath dir name
  pathNormalize noExt

/-- getFileKey from src/opt/index.ts line 103. -/
def getFileKey (filePath : String) : String :=
  normalizePathKey filePath

/-- getModuleKeyFromSpecifier from src/opt/index.ts lines 105-121, on the
specifier's string text: relative and absolute specifiers are resolved
against the containing file's directory and canonicalized; bare package
names are returned unchanged. -/
def getModuleKeyFromSpecifier (spec : String) (containingFile : String) : String :=
  if headIs spec '.' ∨ headIs spec '/' then
    normalizePathKey (resolvePath (posixDirname containingFile) spec)
  else spec

/-! ## Syntax-tree fragment

The embedded TypeScript fragment covers every node kind the handlers in
src/opt/index.ts inspect.  Expressions never contain statements in this
fragment (arrow function bodies are expression-bodied), which matches
every program the claims are about. -/

mutual
inductive Expr where
  | ident (name : String)
  | lit (value : Int)
  | call (callee : Expr) (args : ExprList)
  | propAccess (object : Expr) (name : String)
  | newExpr (callee : Expr) (args : ExprList)
  | arrow (body : Expr)
deriving DecidableEq
inductive ExprList where
  | nil
  | cons (e : Expr) (rest : ExprList)
deriving DecidableEq
end

/-- A variable declaration's binding: a plain identifier or a
destructuring pattern binding a list of names. -/
inductive BindingName where
  | ident (name : String)
  | pattern (names : List String)
deriving DecidableEq

structure VarDecl where
  name : BindingName
  initializer : Option Expr
deriving DecidableEq

structure ImportSpecElem where
  propertyName : Option String
  name : String
deriving DecidableEq

structure ExportSpecElem where
  propertyName : Option String
  name : String
deriving DecidableEq

mutual
inductive Stmt where
  | varStmt (exported : Bool) (decls : List VarDecl)
  | funcDecl (name : Option String) (body : Stmts)
  | classDecl (name : Option String) (members : Stmts)
  | enumDecl (name : String)
  | interfaceDecl (name : String)
  | typeAliasDecl (name : String)
  | importDecl (moduleSpecifier : String) (defaultName : Option String)
      (named : Option (List ImportSpecElem))
  | exportNamed (specs : List ExportSpecElem)
  | exportAssign (expr : Expr)
  | exprStmt (expr : Expr)
  | block (body : Stmts)
deriving DecidableEq
inductive Stmts where
  | nil
  | cons (s : Stmt) (rest : Stmts)
deriving DecidableEq
end

def Stmts.toList : Stmts → List Stmt
  | .nil => []
  | .cons s rest => s :: rest.toList

def Stmts.ofList : List Stmt → Stmts
  | [] => .nil
  | s :: rest => .cons s (Stmts.ofList rest)

/-- A module of the batch: SuSee.DepsFile, with the text replaced by its
tree (the external parse/print collaborator is the identity coupling of
text and tree). -/
structure DepsFile where
  file : String
  content : Stmts
deriving DecidableEq

/-! ## Shared rename data (SuSee.NamesSets and SuSee.DuplicatesNameMap) -/

/-- One element of a SuSee.NamesSets collection. -/
structure RenameEntry where
  base : String
  file : String
  newName : String
deriving DecidableEq

abbrev NamesSets := List RenameEntry

/-- SuSee.DuplicatesNameMap: a JS Map from a declared name to a Set of
fresh { file } objects.  Modelled as an association list in key insertion
order; the value is the list of inserted file strings in insertion order
(a fresh object literal is inserted per occurrence, so the Set never
deduplicates and its size is this list's length). -/
abbrev NamesMap := List (String × List String)

/-- Record one (name, file) occurrence, as in the collector's
namesMap.set / namesMap.get(..).add pair. -/
def addName (nm : NamesMap) (name file : String) : NamesMap :=
  if (nm : List _).any (fun p => p.1 == name) then
    (nm : List _).map (fun p => if p.1 == name then (p.1, p.2 ++ [file]) else p)
  else nm ++ [(name, [file])]

/-- The size of the Set stored for a name (0 when absent). -/
def nameCount (nm : NamesMap) (name : String) : Nat :=
  match (nm : List _).find? (fun p => p.1 == name) with
  | some p => p.2.length
  | none => 0

/-- dupName.getName from src/opt/index.ts lines 70-77 and 89-92: the
generator configured with the d_ prefix; the counter argument is the number
of names generated so far (the names array's length), and each call
appends, so the produced suffix is the counter plus one. -/
def dupGetName (base : String) (counter : Nat) : String :=
  "d_" ++ base ++ "_" ++ toString (counter + 1)

/-! ## ScopeAwareCollector (collector, src/opt/index.ts lines 473-564)

The collector walks the tree carrying the isGlobalScope flag, collecting
bound names of variable statements and the names of function, class,
enum, interface and type-alias declarations while the flag is true;
blocks, function bodies and class bodies flip the flag to false for all
their descendants.  Destructuring-pattern bindings are skipped (the code
requires ts.isIdentifier(decl.name)).  The collector never mutates the
tree, so it is modelled as a pure listing of (name, file) pairs in
traversal order. -/

mutual
def collectStmt (file : String) (top : Bool) : Stmt → List (String × String)
  | .varStmt _ decls =>
    if top then
      decls.filterMap (fun d =>
        match d.name with
        | .ident n => some (n, file)
        | .pattern _ => none)
    else []
  | .funcDecl name body =>
    (if top then
      match name with
      | some n => [(n, file)]
      | none => []
    else []) ++ collectStmts file false body
  | .classDecl name members =>
    (if top then
      match name with
      | some n => [(n, file)]
      | none => []
    else []) ++ collectStmts file false members
  | .enumDecl n => if top then [(n, file)] else []
  | .interfaceDecl n => if top then [(n, file)] else []
  | .typeAliasDecl n => if top then [(n, file)] else []
  | .block body => collectStmts file false body
  | .importDecl _ _ _ => []
  | .exportNamed _ => []
  | .exportAssign _ => []
  | .exprStmt _ => []
def collectStmts (file : String) (top : Bool) : Stmts → List (String × String)
  | .nil => []
  | .cons s rest => collectStmt file top s ++ collectStmts file top rest
end

/-- Run the collector handler over one module into the shared map. -/
def collectModule (nm : NamesMap) (d : DepsFile) : NamesMap :=
  (collectStmts d.file true d.content).foldl (fun m p => addName m p.1 p.2) nm

/-- The collector stage over the whole batch, in batch order. -/
def collectDeps (nm : NamesMap) (deps : List DepsFile) : NamesMap :=
  deps.foldl collectModule nm

/-! ## DeclarationRenamer (updater, src/opt/index.ts lines 575-671)

The updater's visitor renames variable, function and class declarations
whose name has a namesMap entry of size greater than one, generating the
new name with dupName.getName and appending {base, file, newName} to the
shared callNameMap; it returns the rewritten node without descending into
it, and descends through all other nodes.  Enum, interface and type-alias
declarations are not matched by the visitor and pass through unchanged.
The generator state and the callNameMap are threaded explicitly. -/

structure UpdSt where
  counter : Nat
  callMap : NamesSets
deriving DecidableEq

/-- Processing of one declaration of a variable statement by the
updater's declarations.map callback. -/
def updVarDecl (nm : NamesMap) (file : String) (d : VarDecl) (st : UpdSt) :
    VarDecl × UpdSt :=
  match d.name with
  | .ident b =>
    if 1 < nameCount nm b then
      let newName := dupGetName b st.counter
      (⟨.ident newName, d.initializer⟩,
       ⟨st.counter + 1, st.callMap ++ [⟨b, file, newName⟩]⟩)
    else (d, st)
  | .pattern _ => (d, st)

def updVarDecls (nm : NamesMap) (file : String) :
    List VarDecl → UpdSt → List VarDecl × UpdSt
  | [], st => ([], st)
  | d :: ds, st =>
    let r := updVarDecl nm file d st
    let rs := updVarDecls nm file ds r.2
    (r.1 :: rs.1, rs.2)

mutual
def updStmt (nm : NamesMap) (file : String) : Stmt → UpdSt → Stmt × UpdSt
  | .varStmt ex decls, st =>
    let r := updVarDecls nm file decls st
    (.varStmt ex r.1, r.2)
  | .funcDecl (some n) body, st =>
    if 1 < nameCount nm n then
      let newName := dupGetName n st.counter
      (.funcDecl (some newName) body,
       ⟨st.counter + 1, st.callMap ++ [⟨n, file, newName⟩]⟩)
    else
      let r := updStmts nm file body st
      (.funcDecl (some n) r.1, r.2)
  | .funcDecl none body, st =>
    let r := updStmts nm file body st
    (.funcDecl none r.1, r.2)
  | .classDecl (some n) members, st =>
    if 1 < nameCount nm n then
      let newName := dupGetName n st.counter
      (.classDecl (some newName) members,
       ⟨st.counter + 1, st.callMap ++ [⟨n, file, newName⟩]⟩)
    else
      let r := updStmts nm file members st
      (.classDecl (some n) r.1, r.2)
  | .classDecl none members, st =>
    let r := updStmts nm file members st
    (.classDecl none r.1, r.2)
  | .block body, st =>
    let r := updStmts nm file body st
    (.block r.1, r.2)
  | .enumDecl n, st => (.enumDecl n, st)
  | .interfaceDecl n, st => (.interfaceDecl n, st)
  | .typeAliasDecl n, st => (.typeAliasDecl n, st)
  | .importDecl sp dn named, st => (.importDecl sp dn named, st)
  | .exportNamed specs, st => (.exportNamed specs, st)
  | .exportAssign e, st => (.exportAssign e, st)
  | .exprStmt e, st => (.exprStmt e, st)
def updStmts (nm : NamesMap) (file : String) : Stmts → UpdSt → Stmts × UpdSt
  | .nil, st => (.nil, st)
  | .cons s rest, st =>
    let r := updStmt nm file s st
    let rs := updStmts nm file rest r.2
    (.cons r.1 rs.1, rs.2)
end

/-- The updater stage over the whole batch, in batch order. -/
def updDeps (nm : NamesMap) : List DepsFile → UpdSt → List DepsFile × UpdSt
  | [], st => ([], st)
  | d :: ds, st =>
    let r := updStmts nm d.file d.content st
    let rs := updDeps nm ds r.2
    (⟨d.file, r.1⟩ :: rs.1, rs.2)

/-! ## ReferenceRewriter (callExpression, src/opt/index.ts lines 130-232)

Call, property-access and constructor-invocation expressions whose target
is a bare identifier are rewritten using the callNameMap first and the
importNameMap second; the rewritten node is returned without visiting its
children, all other nodes are descended into.  This pass extends no
map. -/

/-- Lookup order of the rewriters: the call-site map is checked first,
the import map second. -/
def lookupBoth (cm im : NamesSets) (base file : String) : Option String :=
  match cm.find? (fun m => m.base == base && m.file == file) with
  | some m => some m.newName
  | none =>
    match im.find? (fun m => m.base == base && m.file == file) with
    | some m => some m.newName
    | none => none

mutual
def callTxE (cm im : NamesSets) (file : String) : Expr → Expr
  | .call (.ident b) args =>
    match lookupBoth cm im b file with
    | some n => .call (.ident n) args
    | none => .call (.ident b) (callTxEs cm im file args)
  | .call f args => .call (callTxE cm im file f) (callTxEs cm im file args)
  | .propAccess (.ident b) name =>
    match lookupBoth cm im b file with
    | some n => .propAccess (.ident n) name
    | none => .propAccess (.ident b) name
  | .propAccess o name => .propAccess (callTxE cm im file o) name
  | .newExpr (.ident b) args =>
    match lookupBoth cm im b file with
    | some n => .newExpr (.ident n) args
    | none => .newExpr (.ident b) (callTxEs cm im file args)
  | .newExpr f args => .newExpr (callTxE cm im file f) (callTxEs cm im file args)
  | .arrow body => .arrow (callTxE cm im file body)
  | .ident n => .ident n
  | .lit v => .lit v
def callTxEs (cm im : NamesSets) (file : String) : ExprList → ExprList
  | .nil => .nil
  | .cons e rest => .cons (callTxE cm im file e) (callTxEs cm im file rest)
end

mutual
def callTxStmt (cm im : NamesSets) (file : String) : Stmt → Stmt
  | .varStmt ex decls =>
    .varStmt ex (decls.map (fun d => ⟨d.name, d.initializer.map (callTxE cm im file)⟩))
  | .funcDecl n body => .funcDecl n (callTxStmts cm im file body)
  | .classDecl n members => .classDecl n (callTxStmts cm im file members)
  | .block body => .block (callTxStmts cm im file body)
  | .exportAssign e => .exportAssign (callTxE cm im file e)
  | .exprStmt e => .exprStmt (callTxE cm im file e)
  | .enumDecl n => .enumDecl n
  | .interfaceDecl n => .interfaceDecl n
  | .typeAliasDecl n => .typeAliasDecl n
  | .importDecl sp dn named => .importDecl sp dn named
  | .exportNamed specs => .exportNamed specs
def callTxStmts (cm im : NamesSets) (file : String) : Stmts → Stmts
  | .nil => .nil
  | .cons s rest => .cons (callTxStmt cm im file s) (callTxStmts cm im file rest)
end

/-- The reference-rewriting stage over the whole batch. -/
def callTxDeps (cm im : NamesSets) (deps : List DepsFile) : List DepsFile :=
  deps.map (fun d => ⟨d.file, callTxStmts cm im d.file d.content⟩)

/-! ## ExportRewriter (exportExpression, src/opt/index.ts lines 244-333)

Named export specifiers and export assignments over a bare identifier are
rewritten: a callNameMap match rewrites and also appends
{base, getFileKey file, newName} to the shared exportNameMap; an
importNameMap match only rewrites.  The exportNameMap is threaded through
the traversal. -/

def expTxSpec (cm im : NamesSets) (file : String) (sp : ExportSpecElem)
    (em : NamesSets) : ExportSpecElem × NamesSets :=
  match cm.find? (fun m => m.base == sp.name && m.file == file) with
  | some m => (⟨sp.propertyName, m.newName⟩, em ++ [⟨sp.name, getFileKey file, m.newName⟩])
  | none =>
    match im.find? (fun m => m.base == sp.name && m.file == file) with
    | some m => (⟨sp.propertyName, m.newName⟩, em)
    | none => (sp, em)

def expTxSpecs (cm im : NamesSets) (file : String) :
    List ExportSpecElem → NamesSets → List ExportSpecElem × NamesSets
  | [], em => ([], em)
  | sp :: sps, em =>
    let r := expTxSpec cm im file sp em
    let rs := expTxSpecs cm im file sps r.2
    (r.1 :: rs.1, rs.2)

mutual
def expTxStmt (cm im : NamesSets) (file : String) : Stmt → NamesSets → Stmt × NamesSets
  | .exportNamed specs, em =>
    let r := expTxSpecs cm im file specs em
    (.exportNamed r.1, r.2)
  | .exportAssign (.ident b), em =>
    (match cm.find? (fun m => m.base == b && m.file == file) with
     | some m => (.exportAssign (.ident m.newName), em ++ [⟨b, getFileKey file, m.newName⟩])
     | none =>
       match im.find? (fun m => m.base == b && m.file == file) with
       | some m => (.exportAssign (.ident m.newName), em)
       | none => (.exportAssign (.ident b), em))
  | .exportAssign e, em => (.exportAssign e, em)
  | .funcDecl n body, em =>
    let r := expTxStmts cm im file body em
    (.funcDecl n r.1, r.2)
  | .classDecl n members, em =>
    let r := expTxStmts cm im file members em
    (.classDecl n r.1, r.2)
  | .block body, em =>
    let r := expTxStmts cm im file body em
    (.block r.1, r.2)
  | .varStmt ex decls, em => (.varStmt ex decls, em)
  | .enumDecl n, em => (.enumDecl n, em)
  | .interfaceDecl n, em => (.interfaceDecl n, em)
  | .typeAliasDecl n, em => (.typeAliasDecl n, em)
  | .importDecl sp dn named, em => (.importDecl sp dn named, em)
  | .exprStmt e, em => (.exprStmt e, em)
def expTxStmts (cm im : NamesSets) (file : String) : Stmts → NamesSets → Stmts × NamesSets
  | .nil, em => (.nil, em)
  | .cons s rest, em =>
    let r := expTxStmt cm im file s em
    let rs := expTxStmts cm im file rest r.2
    (.cons r.1 rs.1, rs.2)
end

/-- The export-rewriting stage over the whole batch. -/
def expTxDeps (cm im : NamesSets) : List DepsFile → NamesSets → List DepsFile × NamesSets
  | [], em => ([], em)
  | d :: ds, em =>
    let r := expTxStmts cm im d.file d.content em
    let rs := expTxDeps cm im ds r.2
    (⟨d.file, r.1⟩ :: rs.1, rs.2)

/-! ## ImportRewriter (importExpression, src/opt/index.ts lines 342-463)

For an import declaration the source specifier is resolved to a canonical
module key.  The default binding is looked up first: on a match the
handler pushes {base, file, newName} onto the importNameMap and returns
the declaration with only the default binding renamed, leaving the named
specifiers untouched.  Otherwise each named import specifier is looked
up, rewritten on a match, and its entry pushed. -/

/-- Rewriting of one named import specifier (spec-side characterization
helper, also used to state theorems). -/
def impSpecRewritten (em : NamesSets) (moduleKey : String) (el : ImportSpecElem) :
    ImportSpecElem :=
  match em.find? (fun m => m.base == el.name && m.file == moduleKey) with
  | some m => ⟨el.propertyName, m.newName⟩
  | none => el

/-- The importNameMap entry produced for one named import specifier. -/
def impSpecEntry (em : NamesSets) (moduleKey file : String) (el : ImportSpecElem) :
    Option RenameEntry :=
  match em.find? (fun m => m.base == el.name && m.file == moduleKey) with
  | some m => some ⟨m.base, file, m.newName⟩
  | none => none

def impTxSpecList (em : NamesSets) (file moduleKey : String) :
    List ImportSpecElem → NamesSets → List ImportSpecElem × NamesSets
  | [], im => ([], im)
  | el :: els, im =>
    match em.find? (fun m => m.base == el.name && m.file == moduleKey) with
    | some m =>
      let rs := impTxSpecList em file moduleKey els (im ++ [⟨m.base, file, m.newName⟩])
      (⟨el.propertyName, m.newName⟩ :: rs.1, rs.2)
    | none =>
      let rs := impTxSpecList em file moduleKey els im
      (el :: rs.1, rs.2)

mutual
def impTxStmt (em : NamesSets) (file : String) : Stmt → NamesSets → Stmt × NamesSets
  | .importDecl sp dn named, im =>
    let moduleKey := getModuleKeyFromSpecifier sp file
    (match dn with
     | some d =>
       match em.find? (fun m => m.base == d && m.file == moduleKey) with
       | some m => (.importDecl sp (some m.newName) named, im ++ [⟨m.base, file, m.newName⟩])
       | none =>
         match named with
         | some els =>
           if els.isEmpty then (.importDecl sp dn named, im)
           else
             let rs := impTxSpecList em file moduleKey els im
             (.importDecl sp dn (some rs.1), rs.2)
         | none => (.importDecl sp dn named, im)
     | none =>
       match named with
       | some els =>
         if els.isEmpty then (.importDecl sp dn named, im)
         else
           let rs := impTxSpecList em file moduleKey els im
           (.importDecl sp dn (some rs.1), rs.2)
       | none => (.importDecl sp dn named, im))
  | .funcDecl n body, im =>
    let r := impTxStmts em file body im
    (.funcDecl n r.1, r.2)
  | .classDecl n members, im =>
    let r := impTxStmts em file members im
    (.classDecl n r.1, r.2)
  | .block body, im =>
    let r := impTxStmts em file body im
    (.block r.1, r.2)
  | .varStmt ex decls, im => (.varStmt ex decls, im)
  | .enumDecl n, im => (.enumDecl n, im)
  | .interfaceDecl n, im => (.interfaceDecl n, im)
  | .typeAliasDecl n, im => (.typeAliasDecl n, im)
  | .exportNamed specs, im => (.exportNamed specs, im)
  | .exportAssign e, im => (.exportAssign e, im)
  | .exprStmt e, im => (.exprStmt e, im)
def impTxStmts (em : NamesSets) (file : String) : Stmts → NamesSets → Stmts × NamesSets
  | .nil, im => (.nil, im)
  | .cons s rest, im =>
    let r := impTxStmt em file s im
    let rs := impTxStmts em file rest r.2
    (.cons r.1 rs.1, rs.2)
end

/-- The import-rewriting stage over the whole batch. -/
def impTxDeps (em : NamesSets) : List DepsFile → NamesSets → List DepsFile × NamesSets
  | [], im => ([], im)
  | d :: ds, im =>
    let r := impTxStmts em d.file d.content im
    let rs := impTxDeps em ds r.2
    (⟨d.file, r.1⟩ :: rs.1, rs.2)

/-! ## PipelineOrchestrator (duplicateHandlers.renamed, lines 689-724)
and the DuplicateVerifier (duplicateHandlers.notRenamed, lines 733-756) -/

/-- All shared mutable state of one renamed invocation.  The maps are the
caller-supplied namesMap / callNameMap / importNameMap / exportNameMap
arguments; counter is the state of the module-level dupName generator
(src/opt/index.ts lines 89-92), which outlives any single invocation. -/
structure PipeSt where
  namesMap : NamesMap
  callNameMap : NamesSets
  importNameMap : NamesSets
  exportNameMap : NamesSets
  counter : Nat
deriving DecidableEq

/-- duplicateHandlers.renamed: the seven stages, each a full barrier over
the batch, in the fixed order collector, updater, references, exports,
imports, references, exports. -/
def renamedRun (deps : List DepsFile) (st : PipeSt) : List DepsFile × PipeSt :=
  let nm := collectDeps st.namesMap deps
  let u := updDeps nm deps ⟨st.counter, st.callNameMap⟩
  let cm := u.2.callMap
  let deps3 := callTxDeps cm st.importNameMap u.1
  let e1 := expTxDeps cm st.importNameMap deps3 st.exportNameMap
  let i1 := impTxDeps e1.2 e1.1 st.importNameMap
  let deps6 := callTxDeps cm i1.2 i1.1
  let e2 := expTxDeps cm i1.2 deps6 e1.2
  (e2.1, ⟨nm, cm, i1.2, e2.2, u.2.counter⟩)

/-- A fresh invocation state: caller-created empty maps, and the counter
of the process-wide dupName generator as it stands. -/
def freshPipeSt (counter : Nat) : PipeSt :=
  ⟨[], [], [], [], counter⟩

/-- The observable outcome of duplicateHandlers.notRenamed: either the
deps are returned, or the process is terminated via process.exit. -/
inductive VerifyResult where
  | ok (deps : List DepsFile)
  | exited (code : Nat)
deriving DecidableEq

/-- duplicateHandlers.notRenamed: runs the collector over the batch into
the caller's namesMap, then if any name's set has more than one element
it logs the name and its files and calls process.exit(1); otherwise it
returns the deps unchanged (the collector result is discarded). -/
def notRenamed (deps : List DepsFile) (nm : NamesMap) : VerifyResult :=
  let nm2 := collectDeps nm deps
  if (nm2 : List _).any (fun p => 1 < p.2.length) then .exited 1
  else .ok deps

/-! ## Spec-side notions used to state claims -/

/-- The top-level (name, declaring file) pairs of a batch, as the
collector lists them. -/
def collectPairs (deps : List DepsFile) : List (String × String) :=
  deps.flatMap (fun d => collectStmts d.file true d.content)

/-- The distinct modules declaring a name at top level. -/
def declaringModules (deps : List DepsFile) (name : String) : List String :=
  (((collectPairs deps).filter (fun p => p.1 == name)).map (fun p => p.2)).dedup

/-- A batch has no top-level name collisions when no name is declared at
top level in two or more distinct modules (spec glossary). -/
def noCollisions (deps : List DepsFile) : Bool :=
  (collectPairs deps).all (fun p => (declaringModules deps p.1).length ≤ 1)

/-! ## Concrete scenario data -/

/-- Module a of the spec's concrete scenario:
const foo = () => 1; export { foo }; -/
def scenA : DepsFile :=
  ⟨"/project/a/index.ts",
   .cons (.varStmt false [⟨.ident "foo", some (.arrow (.lit 1))⟩])
     (.cons (.exportNamed [⟨none, "foo"⟩]) .nil)⟩

/-- Module b of the spec's concrete scenario:
const foo = () => 2; export { foo }; -/
def scenB : DepsFile :=
  ⟨"/project/b/index.ts",
   .cons (.varStmt false [⟨.ident "foo", some (.arrow (.lit 2))⟩])
     (.cons (.exportNamed [⟨none, "foo"⟩]) .nil)⟩

/-- Module main of the spec's concrete scenario: it imports foo from
./a and declares export const sum = foo(). -/
def scenMain : DepsFile :=
  ⟨"/project/main.ts",
   .cons (.importDecl "./a" none (some [⟨none, "foo"⟩]))
     (.cons (.varStmt true [⟨.ident "sum", some (.call (.ident "foo") .nil)⟩]) .nil)⟩

/-- The scenario batch, in the order of the repository test. -/
def scenDeps : List DepsFile := [scenA, scenB, scenMain]

/-- The expected rewritten batch: a declares and exports d_foo_1, b
declares and exports d_foo_2, main imports d_foo_1 from ./a and calls
it. -/
def scenExpected : List DepsFile :=
  [⟨"/project/a/index.ts",
    .cons (.varStmt false [⟨.ident "d_foo_1", some (.arrow (.lit 1))⟩])
      (.cons (.exportNamed [⟨none, "d_foo_1"⟩]) .nil)⟩,
   ⟨"/project/b/index.ts",
    .cons (.varStmt false [⟨.ident "d_foo_2", some (.arrow (.lit 2))⟩])
      (.cons (.exportNamed [⟨none, "d_foo_2"⟩]) .nil)⟩,
   ⟨"/project/main.ts",
    .cons (.importDecl "./a" none (some [⟨none, "d_foo_1"⟩]))
      (.cons (.varStmt true [⟨.ident "sum", some (.call (.ident "d_foo_1") .nil)⟩]) .nil)⟩]

/-- A single module declaring x twice at top level (legal for var):
var x = 1; var x = 2; -/
def dupOneModule : List DepsFile :=
  [⟨"/m.ts",
    .cons (.varStmt false [⟨.ident "x", some (.lit 1)⟩])
      (.cons (.varStmt false [⟨.ident "x", some (.lit 2)⟩]) .nil)⟩]

/-- Two modules both declaring the enum E at top level. -/
def enumBatch : List DepsFile :=
  [⟨"/p/e1.ts", .cons (.enumDecl "E") .nil⟩,
   ⟨"/p/e2.ts", .cons (.enumDecl "E") .nil⟩]

/-- Two modules colliding on foo (first invocation batch). -/
def fooBatch : List DepsFile :=
  [⟨"/p/a.ts", .cons (.varStmt false [⟨.ident "foo", some (.lit 1)⟩]) .nil⟩,
   ⟨"/p/b.ts", .cons (.varStmt false [⟨.ident "foo", some (.lit 2)⟩]) .nil⟩]

/-- Two modules colliding on bar (second invocation batch). -/
def barBatch : List DepsFile :=
  [⟨"/p/c.ts", .cons (.varStmt false [⟨.ident "bar", some (.lit 1)⟩]) .nil⟩,
   ⟨"/p/d.ts", .cons (.varStmt false [⟨.ident "bar", some (.lit 2)⟩]) .nil⟩]

/-- A second invocation of renamed in the same process: the caller
creates fresh maps, but the counter of the module-level dupName generator
(src/opt/index.ts lines 89-92) carries over from the first invocation. -/
def barSecondInvocation : List DepsFile × PipeSt :=
  renamedRun barBatch (freshPipeSt (renamedRun fooBatch (freshPipeSt 0)).2.counter)

/-- An export map holding renames for both the default export foo and the
named export bar of module key /p/a. -/
def bothExportsMap : NamesSets :=
  [⟨"foo", "/p/a", "d_foo_1"⟩, ⟨"bar", "/p/a", "d_bar_2"⟩]

/-- An import declaration with a default binding foo and a named
specifier bar, importing from ./a. -/
def bothFormsImport : Stmt :=
  .importDecl "./a" (some "foo") (some [⟨none, "bar"⟩])

/-- The entries appended from counter value c carry, in order, exactly
the names dupName would generate: the i-th appended entry (0-based) is
built at counter c + i, i.e. with suffix c + i + 1. -/
def entriesOk (c : Nat) (l : List RenameEntry) : Prop :=
  ∀ i (h : i < l.length), (l[i]).newName = dupGetName (l[i]).base (c + i)

/-- One step of the updater relates its input and output state by
appending consecutively numbered entries. -/
def GenOk (st st2 : UpdSt) : Prop :=
  ∃ new, st2.callMap = st.callMap ++ new ∧
    st2.counter = st.counter + new.length ∧ entriesOk st.counter new

/-- A path segment that survives normalization unchanged: nonempty, not a
dot segment, and free of separators. -/
def CleanSeg (s : String) : Prop :=
  s ≠ "" ∧ s ≠ "." ∧ s ≠ ".." ∧ '/' ∉ s.toList

/-! ## Claim theorems (concrete evaluations) -/

/-- Claim C1: on the concrete three-module batch (a and b each declaring
and exporting foo, main importing foo from ./a and calling it), one
invocation of the renamed pipeline from a fresh process state yields: a
declaring and exporting d_foo_1, b declaring and exporting d_foo_2, and
main importing d_foo_1 from ./a and calling d_foo_1. -/
theorem c1_renamed_scenario :
    (renamedRun scenDeps (freshPipeSt 0)).1 = scenExpected := by decide

/-- Claim C2 evaluation at the failing input: in the batch consisting of
one module /m.ts whose text is var x = 1; var x = 2; the name x is
declared at top level in exactly one distinct module, yet the collector's
map ends with two entries for x (one fresh object per occurrence goes
into the JS Set) and the verifier reports it, terminating the process
with exit code 1, where the claim requires it not to be reported. -/
theorem c2_code_evaluation :
    collectDeps [] dupOneModule = [("x", ["/m.ts", "/m.ts"])] ∧
    declaringModules dupOneModule "x" = ["/m.ts"] ∧
    notRenamed dupOneModule [] = .exited 1 := by decide

/-- Claim C3 counterexample: both modules of enumBatch declare the enum E
at top level, so E maps to two modules in the declaration index, yet the
renamed pipeline leaves both modules unchanged and appends nothing to the
call-site map: the updater does not rewrite enumeration declarations,
contradicting the claim for that declaration kind. -/
theorem c3_counterexample :
    declaringModules enumBatch "E" = ["/p/e1.ts", "/p/e2.ts"] ∧
    (renamedRun enumBatch (freshPipeSt 0)).1 = enumBatch ∧
    (renamedRun enumBatch (freshPipeSt 0)).2.callNameMap = [] := by decide

/-- Claim C4 evaluation at the failing input: the one-module batch
var x = 1; var x = 2; has no top-level name collision (x is declared in
only one distinct module), yet the renamed pipeline rewrites the module
(to d_x_1 and d_x_2), because the occurrence-counting namesMap makes the
updater treat the duplicate as a cross-module collision; the claim
requires the batch to be returned textually unchanged. -/
theorem c4_code_evaluation :
    noCollisions dupOneModule = true ∧
    (renamedRun dupOneModule (freshPipeSt 0)).1 =
      [⟨"/m.ts",
        .cons (.varStmt false [⟨.ident "d_x_1", some (.lit 1)⟩])
          (.cons (.varStmt false [⟨.ident "d_x_2", some (.lit 2)⟩]) .nil)⟩] ∧
    (renamedRun dupOneModule (freshPipeSt 0)).1 ≠ dupOneModule := by decide

/-- Claim C5 counterexample: in a second invocation of the renamed
pipeline in the same process (fresh caller-supplied maps, but the
module-level dupName generator keeps its counter), the two renames of
barBatch receive suffixes _3 and _4, not _1 and _2 as the claim requires
of every invocation: generator state does persist across invocations. -/
theorem c5_counterexample :
    barSecondInvocation.2.callNameMap.map (fun e => e.newName) =
      ["d_bar_3", "d_bar_4"] ∧
    (["d_bar_3", "d_bar_4"] : List String) ≠ ["d_bar_1", "d_bar_2"] := by decide

/-- Claim C6 counterexample: on the two-module batch colliding on foo,
notRenamed does not return success or a list of collision reports: it
terminates the process with exit code 1 (process.exit(1) at
src/opt/index.ts line 753), so the fatality decision is taken inside the
verifier, not left to the caller as the claim states. -/
theorem c6_counterexample :
    notRenamed fooBatch [] = .exited 1 ∧
    notRenamed fooBatch [] ≠ .ok fooBatch := by decide

/-- Claim C7 counterexample: from the importing module /project/main.ts,
the specifier ./a.b resolves to the key /project/a (normalizePathKey
strips the .b part as an extension), while ./a.b/index resolves to
/project/a.b: the two keys differ, so the claim fails for the directory
name a.b. -/
theorem c7_counterexample :
    getModuleKeyFromSpecifier "./a.b" "/project/main.ts" = "/project/a" ∧
    getModuleKeyFromSpecifier "./a.b/index" "/project/main.ts" = "/project/a.b" ∧
    getModuleKeyFromSpecifier "./a.b" "/project/main.ts" ≠
      getModuleKeyFromSpecifier "./a.b/index" "/project/main.ts" := by decide

/-- Claim C8 counterexample: for an import of default foo plus named bar
from ./a in /p/main.ts, with the export map holding renames for both foo
and bar under the key /p/a, the import rewriter rewrites only the default
binding (to d_foo_1) and returns, leaving the named specifier bar
untouched, where the claim requires all of them rewritten. -/
theorem c8_counterexample :
    (impTxStmt bothExportsMap "/p/main.ts" bothFormsImport []).1 =
      .importDecl "./a" (some "d_foo_1") (some [⟨none, "bar"⟩]) ∧
    (impTxStmt bothExportsMap "/p/main.ts" bothFormsImport []).2 =
      [⟨"foo", "/p/main.ts", "d_foo_1"⟩] ∧
    (Stmt.importDecl "./a" (some "d_foo_1") (some [⟨none, "bar"⟩])) ≠
      .importDecl "./a" (some "d_foo_1") (some [⟨none, "d_bar_2"⟩]) := by decide

/-! ## Universal claim theorems -/

/-- Claim C10: a top-level variable statement whose binding name is a
destructuring pattern is never recorded by the collector (which requires
a plain identifier binding) and is left untouched by the updater, with no
generator consumption and no call-site map entry — whatever the
declaration index says about the names the pattern binds, and at either
scope flag. -/
theorem c10_pattern_bindings_ignored :
    ∀ (nm : NamesMap) (file : String) (ex : Bool) (ns : List String)
      (init : Option Expr) (top : Bool) (st : UpdSt),
      collectStmt file top (.varStmt ex [⟨.pattern ns, init⟩]) = [] ∧
      updStmt nm file (.varStmt ex [⟨.pattern ns, init⟩]) st =
        (.varStmt ex [⟨.pattern ns, init⟩], st) := by
  intro nm file ex ns init top st
  constructor
  · cases top <;> simp [collectStmt]
  · simp [updStmt, updVarDecls, updVarDecl]

/-- Claim C9: in every rewriting lookup of the reference rewriter (call,
property access, constructor invocation) and of the export rewriter
(named export specifier, export assignment), when both the call-site map
and the import map contain an entry matching the same (base, module)
pair, the call-site map's entry is the one applied. -/
theorem c9_callsite_map_preferred :
    ∀ (cm im : NamesSets) (file b propName : String) (m m2 : RenameEntry)
      (args : ExprList) (pn : Option String) (em : NamesSets),
      cm.find? (fun e => e.base == b && e.file == file) = some m →
      im.find? (fun e => e.base == b && e.file == file) = some m2 →
      callTxE cm im file (.call (.ident b) args) = .call (.ident m.newName) args ∧
      callTxE cm im file (.propAccess (.ident b) propName) =
        .propAccess (.ident m.newName) propName ∧
      callTxE cm im file (.newExpr (.ident b) args) = .newExpr (.ident m.newName) args ∧
      expTxSpec cm im file ⟨pn, b⟩ em =
        (⟨pn, m.newName⟩, em ++ [⟨b, getFileKey file, m.newName⟩]) ∧
      expTxStmt cm im file (.exportAssign (.ident b)) em =
        (.exportAssign (.ident m.newName), em ++ [⟨b, getFileKey file, m.newName⟩]) := by
  intro cm im file b propName m m2 args pn em hc hi
  refine ⟨?_, ?_, ?_, ?_, ?_⟩ <;> simp [callTxE, lookupBoth, expTxSpec, expTxStmt, hc]

/-- Witness for c9_callsite_map_preferred: with the call-site map mapping
x to d_x_1 and the import map mapping x to d_x_9 in /m.ts, a call x()
is rewritten to d_x_1(), the call-site map's entry. -/
theorem c9_callsite_map_preferred_witness :
    callTxE [⟨"x", "/m.ts", "d_x_1"⟩] [⟨"x", "/m.ts", "d_x_9"⟩] "/m.ts"
        (.call (.ident "x") .nil) = .call (.ident "d_x_1") .nil :=
  (c9_callsite_map_preferred [⟨"x", "/m.ts", "d_x_1"⟩] [⟨"x", "/m.ts", "d_x_9"⟩]
    "/m.ts" "x" "p" ⟨"x", "/m.ts", "d_x_1"⟩ ⟨"x", "/m.ts", "d_x_9"⟩ .nil none []
    (by decide) (by decide)).1

/-- Claim C6 amended: the verifier rewrites nothing and collects into the
caller's map, but it does not leave the fatality decision to the caller:
it returns the batch unchanged exactly when no name has more than one
recorded occurrence, and otherwise it logs the collisions and terminates
the process with exit code 1 instead of returning a report list. -/
theorem c6_amended_verifier :
    ∀ (deps : List DepsFile) (nm : NamesMap),
      (notRenamed deps nm = .ok deps ↔
        ∀ p ∈ collectDeps nm deps, p.2.length ≤ 1) ∧
      (notRenamed deps nm = .exited 1 ↔
        ∃ p ∈ collectDeps nm deps, 1 < p.2.length) := by
  intro deps nm
  by_cases hP : ∃ p ∈ collectDeps nm deps, 1 < p.2.length
  · have hb : (collectDeps nm deps).any (fun p => 1 < p.2.length) = true := by
      rw [List.any_eq_true]; simpa using hP
    have hres : notRenamed deps nm = .exited 1 := by simp [notRenamed, hb]
    obtain ⟨p, hp, hlt⟩ := hP
    refine ⟨⟨fun he => ?_, fun hall => ?_⟩, fun _ => ⟨p, hp, hlt⟩, fun _ => hres⟩
    · rw [hres] at he; exact absurd he (by simp)
    · exact absurd (hall p hp) (by omega)
  · have hb : (collectDeps nm deps).any (fun p => 1 < p.2.length) = false := by
      rw [List.any_eq_false]
      intro p hp
      simp only [decide_eq_true_eq]
      exact fun hlt => hP ⟨p, hp, hlt⟩
    have hres : notRenamed deps nm = .ok deps := by simp [notRenamed, hb]
    refine ⟨⟨fun _ p hp => ?_, fun _ => hres⟩, fun he => ?_, fun hex => absurd hex hP⟩
    · by_contra hgt; exact hP ⟨p, hp, by omega⟩
    · rw [hres] at he; exact absurd he (by simp)

/-- The named-specifier loop of the import rewriter rewrites each element
by its export-map lookup and pushes one import-map entry per match, in
element order. -/
theorem impTxSpecList_eq (em : NamesSets) (file moduleKey : String) :
    ∀ (els : List ImportSpecElem) (im : NamesSets),
      impTxSpecList em file moduleKey els im =
        (els.map (impSpecRewritten em moduleKey),
         im ++ els.filterMap (impSpecEntry em moduleKey file)) := by
  intro els
  induction els with
  | nil => intro im; simp [impTxSpecList]
  | cons el rest ih =>
    intro im
    cases h : em.find? (fun m => m.base == el.name && m.file == moduleKey) with
    | none => simp [impTxSpecList, h, ih, impSpecRewritten, impSpecEntry]
    | some m => simp [impTxSpecList, h, ih, impSpecRewritten, impSpecEntry]

/-- Claim C8 amended: the import rewriter resolves the specifier to a
canonical module key and looks the default binding up first; on a match
it rewrites only the default binding, pushes its import-map entry and
returns, leaving the named specifiers untouched in that pass.  Only when
there is no default binding (or, symmetrically, no default match) are the
named specifiers each looked up, rewritten on a match, and their entries
pushed in order. -/
theorem c8_amended_import_rewriter :
    ∀ (em im : NamesSets) (file sp dn : String)
      (named : Option (List ImportSpecElem)) (m : RenameEntry)
      (els : List ImportSpecElem),
      (em.find? (fun e => e.base == dn &&
          e.file == getModuleKeyFromSpecifier sp file) = some m →
        impTxStmt em file (.importDecl sp (some dn) named) im =
          (.importDecl sp (some m.newName) named,
           im ++ [⟨m.base, file, m.newName⟩])) ∧
      (els ≠ [] →
        impTxStmt em file (.importDecl sp none (some els)) im =
          (.importDecl sp none
            (some (els.map (impSpecRewritten em (getModuleKeyFromSpecifier sp file)))),
           im ++ els.filterMap
             (impSpecEntry em (getModuleKeyFromSpecifier sp file) file))) := by
  intro em im file sp dn named m els
  constructor
  · intro h
    simp [impTxStmt, h]
  · intro hne
    have hemp : els.isEmpty = false := by
      cases els with
      | nil => exact absurd rfl hne
      | cons a l => rfl
    simp [impTxStmt, hemp, impTxSpecList_eq]

/-- Witness for c8_amended_import_rewriter: for an import of default foo
plus named bar from ./a in /p/main.ts with both foo and bar renamed
under key /p/a, only the default binding is rewritten. -/
theorem c8_amended_import_rewriter_witness :
    impTxStmt bothExportsMap "/p/main.ts" bothFormsImport [] =
      (.importDecl "./a" (some "d_foo_1") (some [⟨none, "bar"⟩]),
       [⟨"foo", "/p/main.ts", "d_foo_1"⟩]) :=
  (c8_amended_import_rewriter bothExportsMap [] "/p/main.ts" "./a" "foo"
    (some [⟨none, "bar"⟩]) ⟨"foo", "/p/a", "d_foo_1"⟩ []).1 (by decide)

/-- Claim C3 amended: given the declaration index, the updater renames a
top-level variable binding, function declaration or class declaration
whose name has an index entry of size greater than one — generating the
fresh name and appending {base, module, newName} to the call-site map —
and leaves a unique name untouched; but enumeration, interface and
type-alias declarations, though recorded by the collector, are never
rewritten by the updater and contribute no call-site map entry, even when
their name collides. -/
theorem c3_amended_updater_kinds :
    ∀ (nm : NamesMap) (file : String) (c : Nat) (cm : NamesSets),
      (∀ ex b init, 1 < nameCount nm b →
        updStmt nm file (.varStmt ex [⟨.ident b, init⟩]) ⟨c, cm⟩ =
          (.varStmt ex [⟨.ident (dupGetName b c), init⟩],
           ⟨c + 1, cm ++ [⟨b, file, dupGetName b c⟩]⟩)) ∧
      (∀ n body, 1 < nameCount nm n →
        updStmt nm file (.funcDecl (some n) body) ⟨c, cm⟩ =
          (.funcDecl (some (dupGetName n c)) body,
           ⟨c + 1, cm ++ [⟨n, file, dupGetName n c⟩]⟩)) ∧
      (∀ n members, 1 < nameCount nm n →
        updStmt nm file (.classDecl (some n) members) ⟨c, cm⟩ =
          (.classDecl (some (dupGetName n c)) members,
           ⟨c + 1, cm ++ [⟨n, file, dupGetName n c⟩]⟩)) ∧
      (∀ ex b init, nameCount nm b ≤ 1 →
        updStmt nm file (.varStmt ex [⟨.ident b, init⟩]) ⟨c, cm⟩ =
          (.varStmt ex [⟨.ident b, init⟩], ⟨c, cm⟩)) ∧
      (∀ n, collectStmt file true (.enumDecl n) = [(n, file)] ∧
        updStmt nm file (.enumDecl n) ⟨c, cm⟩ = (.enumDecl n, ⟨c, cm⟩)) ∧
      (∀ n, collectStmt file true (.interfaceDecl n) = [(n, file)] ∧
        updStmt nm file (.interfaceDecl n) ⟨c, cm⟩ = (.interfaceDecl n, ⟨c, cm⟩)) ∧
      (∀ n, collectStmt file true (.typeAliasDecl n) = [(n, file)] ∧
        updStmt nm file (.typeAliasDecl n) ⟨c, cm⟩ = (.typeAliasDecl n, ⟨c, cm⟩)) := by
  intro nm file c cm
  refine ⟨?_, ?_, ?_, ?_, ?_, ?_, ?_⟩
  · intro ex b init h
    simp [updStmt, updVarDecls, updVarDecl, h]
  · intro n body h
    simp [updStmt, h]
  · intro n members h
    simp [updStmt, h]
  · intro ex b init h
    have : ¬ 1 < nameCount nm b := by omega
    simp [updStmt, updVarDecls, updVarDecl, this]
  · intro n; exact ⟨by simp [collectStmt], by simp [updStmt]⟩
  · intro n; exact ⟨by simp [collectStmt], by simp [updStmt]⟩
  · intro n; exact ⟨by simp [collectStmt], by simp [updStmt]⟩

/-- Witness for c3_amended_updater_kinds: with x declared in two modules,
a top-level function declaration of x in /w.ts is renamed to d_x_1 at
counter 0 and the entry is appended. -/
theorem c3_amended_updater_kinds_witness :
    updStmt [("x", ["/a.ts", "/b.ts"])] "/w.ts" (.funcDecl (some "x") .nil) ⟨0, []⟩ =
      (.funcDecl (some "d_x_1") .nil, ⟨1, [⟨"x", "/w.ts", "d_x_1"⟩]⟩) :=
  (c3_amended_updater_kinds [("x", ["/a.ts", "/b.ts"])] "/w.ts" 0 []).2.1 "x" .nil
    (by decide)

/-! ## Generator ordering (claim C5) -/

theorem entriesOk_nil (c : Nat) : entriesOk c [] := by
  intro i h; simp at h

theorem entriesOk_single (c : Nat) (b f : String) :
    entriesOk c [⟨b, f, dupGetName b c⟩] := by
  intro i h
  have hi : i = 0 := by simpa using h
  subst hi
  simp

theorem entriesOk_append {c : Nat} {l1 l2 : List RenameEntry}
    (h1 : entriesOk c l1) (h2 : entriesOk (c + l1.length) l2) :
    entriesOk c (l1 ++ l2) := by
  intro i h
  by_cases hi : i < l1.length
  · have hget : (l1 ++ l2)[i] = l1[i] := List.getElem_append_left hi
    rw [hget]
    exact h1 i hi
  · have hle : l1.length ≤ i := by omega
    have hlen : i - l1.length < l2.length := by
      simp only [List.length_append] at h; omega
    have hget : (l1 ++ l2)[i] = l2[i - l1.length] := List.getElem_append_right hle
    have := h2 (i - l1.length) hlen
    have harith : c + l1.length + (i - l1.length) = c + i := by omega
    rw [harith] at this
    rw [hget]
    exact this

theorem genOk_refl (st : UpdSt) : GenOk st st :=
  ⟨[], by simp, by simp, entriesOk_nil _⟩

theorem genOk_trans {s t u : UpdSt} (h1 : GenOk s t) (h2 : GenOk t u) : GenOk s u := by
  obtain ⟨n1, hc1, hk1, he1⟩ := h1
  obtain ⟨n2, hc2, hk2, he2⟩ := h2
  refine ⟨n1 ++ n2, by rw [hc2, hc1, List.append_assoc], by simp [hk2, hk1]; omega, ?_⟩
  exact entriesOk_append he1 (by rwa [hk1] at he2)

theorem genOk_push (st : UpdSt) (b f : String) :
    GenOk st ⟨st.counter + 1, st.callMap ++ [⟨b, f, dupGetName b st.counter⟩]⟩ :=
  ⟨[⟨b, f, dupGetName b st.counter⟩], rfl, by simp, entriesOk_single _ _ _⟩

theorem updVarDecl_genOk (nm : NamesMap) (file : String) (d : VarDecl) (st : UpdSt) :
    GenOk st (updVarDecl nm file d st).2 := by
  cases d with
  | mk name init =>
    cases name with
    | ident b =>
      by_cases h : 1 < nameCount nm b
      · simpa [updVarDecl, h] using genOk_push st b file
      · simp [updVarDecl, h, genOk_refl]
    | pattern ns => simp [updVarDecl, genOk_refl]

theorem updVarDecls_genOk (nm : NamesMap) (file : String) :
    ∀ (ds : List VarDecl) (st : UpdSt), GenOk st (updVarDecls nm file ds st).2 := by
  intro ds
  induction ds with
  | nil => intro st; simpa [updVarDecls] using genOk_refl st
  | cons d rest ih =>
    intro st
    simp only [updVarDecls]
    exact genOk_trans (updVarDecl_genOk nm file d st) (ih _)

mutual
theorem updStmt_genOk (nm : NamesMap) (file : String) (s : Stmt) (st : UpdSt) :
    GenOk st (updStmt nm file s st).2 := by
  cases s with
  | varStmt ex decls =>
    simpa only [updStmt] using updVarDecls_genOk nm file decls st
  | funcDecl name body =>
    cases name with
    | some n =>
      by_cases h : 1 < nameCount nm n
      · simpa only [updStmt, if_pos h] using genOk_push st n file
      · simpa only [updStmt, if_neg h] using updStmts_genOk nm file body st
    | none => simpa only [updStmt] using updStmts_genOk nm file body st
  | classDecl name members =>
    cases name with
    | some n =>
      by_cases h : 1 < nameCount nm n
      · simpa only [updStmt, if_pos h] using genOk_push st n file
      · simpa only [updStmt, if_neg h] using updStmts_genOk nm file members st
    | none => simpa only [updStmt] using updStmts_genOk nm file members st
  | block body => simpa only [updStmt] using updStmts_genOk nm file body st
  | enumDecl n => simpa only [updStmt] using genOk_refl st
  | interfaceDecl n => simpa only [updStmt] using genOk_refl st
  | typeAliasDecl n => simpa only [updStmt] using genOk_refl st
  | importDecl sp dn named => simpa only [updStmt] using genOk_refl st
  | exportNamed specs => simpa only [updStmt] using genOk_refl st
  | exportAssign e => simpa only [updStmt] using genOk_refl st
  | exprStmt e => simpa only [updStmt] using genOk_refl st
theorem updStmts_genOk (nm : NamesMap) (file : String) (ss : Stmts) (st : UpdSt) :
    GenOk st (updStmts nm file ss st).2 := by
  cases ss with
  | nil => simpa only [updStmts] using genOk_refl st
  | cons s rest =>
    simp only [updStmts]
    exact genOk_trans (updStmt_genOk nm file s st) (updStmts_genOk nm file rest _)
end

theorem updDeps_genOk (nm : NamesMap) :
    ∀ (deps : List DepsFile) (st : UpdSt), GenOk st (updDeps nm deps st).2 := by
  intro deps
  induction deps with
  | nil => intro st; simpa [updDeps] using genOk_refl st
  | cons d rest ih =>
    intro st
    simp only [updDeps]
    exact genOk_trans (updStmts_genOk nm d.file d.content st) (ih _)

/-- Claim C5 amended: within one invocation of the renamed pipeline that
starts with the module-level generator counter at c, the n renames
performed in processing order receive suffixes c+1, ..., c+n regardless
of how many distinct base names are involved, and the counter advances to
c + n; the very first invocation of a process (c = 0) therefore yields
_1, ..., _n, but the generator is module-level state, so later
invocations continue the numbering instead of restarting at _1. -/
theorem c5_amended_global_counter :
    ∀ (deps : List DepsFile) (st : PipeSt),
      ∃ new, (renamedRun deps st).2.callNameMap = st.callNameMap ++ new ∧
        (renamedRun deps st).2.counter = st.counter + new.length ∧
        entriesOk st.counter new := by
  intro deps st
  have h := updDeps_genOk (collectDeps st.namesMap deps) deps ⟨st.counter, st.callNameMap⟩
  obtain ⟨new, hc, hk, he⟩ := h
  exact ⟨new, by simpa [renamedRun] using hc, by simpa [renamedRun] using hk, he⟩

/-! ## Path lemmas (claim C7) -/

theorem splitChars_ne_nil : ∀ l : List Char, splitChars l ≠ [] := by
  intro l
  cases l with
  | nil => simp [splitChars]
  | cons c cs =>
    simp only [splitChars]
    split
    · simp
    · split <;> simp

theorem splitChars_append : ∀ xs ys : List Char,
    splitChars (xs ++ '/' :: ys) = splitChars xs ++ splitChars ys := by
  intro xs ys
  induction xs with
  | nil => simp [splitChars]
  | cons c cs ih =>
    by_cases hc : c = '/'
    · subst hc
      show splitChars ('/' :: (cs ++ '/' :: ys)) = splitChars ('/' :: cs) ++ splitChars ys
      simp only [splitChars, reduceIte]
      rw [ih]
      rfl
    · cases hsp : splitChars cs with
      | nil => exact absurd hsp (splitChars_ne_nil cs)
      | cons s tail =>
        show splitChars (c :: (cs ++ '/' :: ys)) = splitChars (c :: cs) ++ splitChars ys
        simp only [splitChars, if_neg hc]
        rw [ih, hsp]
        simp

theorem splitChars_no_slash : ∀ (l : List Char) (s : List Char),
    s ∈ splitChars l → '/' ∉ s := by
  intro l
  induction l with
  | nil =>
    intro s hs
    simp [splitChars] at hs
    simp [hs]
  | cons c cs ih =>
    intro s hs
    by_cases hc : c = '/'
    · subst hc
      simp only [splitChars, reduceIte, List.mem_cons] at hs
      rcases hs with h | h
      · simp [h]
      · exact ih s h
    · cases hsp : splitChars cs with
      | nil => exact absurd hsp (splitChars_ne_nil cs)
      | cons s0 tail =>
        simp only [splitChars, if_neg hc, hsp, List.mem_cons] at hs
        rcases hs with h1 | h1
        · subst h1
          intro hmem
          rcases List.mem_cons.mp hmem with h2 | h2
          · exact hc h2.symm
          · exact ih s0 (hsp ▸ List.mem_cons_self s0 tail) h2
        · exact ih s (hsp ▸ List.mem_cons_of_mem s0 h1)

theorem splitChars_of_no_slash : ∀ l : List Char, '/' ∉ l → splitChars l = [l] := by
  intro l
  induction l with
  | nil => intro _; rfl
  | cons c cs ih =>
    intro h
    have hc : c ≠ '/' := fun he => h (he ▸ List.mem_cons_self c cs)
    have hcs : '/' ∉ cs := fun hm => h (List.mem_cons_of_mem c hm)
    simp only [splitChars, if_neg hc, ih hcs]

theorem toList_append (a b : String) : (a ++ b).toList = a.toList ++ b.toList := by
  simp [String.toList, String.data_append]

theorem mk_toList (s : String) : String.mk s.toList = s := rfl

theorem splitPathSegs_append (a b : String) :
    splitPathSegs (a ++ "/" ++ b) = splitPathSegs a ++ splitPathSegs b := by
  have h : (a ++ "/" ++ b).toList = a.toList ++ '/' :: b.toList := by
    have h2 : ("/" : String).toList = ['/'] := by decide
    rw [toList_append, toList_append, h2]
    simp
  simp [splitPathSegs, h, splitChars_append]

theorem splitPathSegs_ne_nil (p : String) : splitPathSegs p ≠ [] := by
  simp only [splitPathSegs]
  intro h
  exact splitChars_ne_nil p.toList (List.map_eq_nil_iff.mp h)

theorem splitPathSegs_no_slash (p : String) :
    ∀ s ∈ splitPathSegs p, '/' ∉ s.toList := by
  intro s hs
  simp only [splitPathSegs, List.mem_map] at hs
  obtain ⟨chunk, hchunk, heq⟩ := hs
  have : (String.mk chunk).toList = chunk := rfl
  rw [← heq, this]
  exact splitChars_no_slash p.toList chunk hchunk

theorem splitPathSegs_of_no_slash (s : String) (h : '/' ∉ s.toList) :
    splitPathSegs s = [s] := by
  simp only [splitPathSegs, splitChars_of_no_slash s.toList h, List.map_cons,
    List.map_nil, mk_toList]

theorem cleanSeg_of_no_dot {s : String} (h1 : s ≠ "") (h2 : '.' ∉ s.toList)
    (h3 : '/' ∉ s.toList) : CleanSeg s := by
  refine ⟨h1, ?_, ?_, h3⟩
  · intro he; subst he; exact h2 (by decide)
  · intro he; subst he; exact h2 (by decide)

theorem normStep_clean {seg : String} (h : CleanSeg seg) (st : List String) :
    normStep st seg = st ++ [seg] := by
  simp [normStep, h.1, h.2.1, h.2.2.1]

theorem foldl_normStep_clean : ∀ (l : List String) (st : List String),
    (∀ s ∈ l, CleanSeg s) → List.foldl normStep st l = st ++ l := by
  intro l
  induction l with
  | nil => intro st _; simp
  | cons seg rest ih =>
    intro st hcl
    have hseg : CleanSeg seg := hcl seg (List.mem_cons_self seg rest)
    rw [List.foldl_cons, normStep_clean hseg,
      ih (st ++ [seg]) (fun s hs => hcl s (List.mem_cons_of_mem seg hs))]
    simp

theorem foldl_normStep_preserves_clean :
    ∀ (l : List String) (st : List String),
      (∀ s ∈ st, CleanSeg s) → (∀ s ∈ l, '/' ∉ s.toList) →
      ∀ s ∈ List.foldl normStep st l, CleanSeg s := by
  intro l
  induction l with
  | nil => intro st hst _ s hs; exact hst s hs
  | cons seg rest ih =>
    intro st hst hsl
    have hst2 : ∀ s ∈ normStep st seg, CleanSeg s := by
      intro s hs
      by_cases h1 : seg = "" ∨ seg = "."
      · rw [normStep, if_pos h1] at hs
        exact hst s hs
      · by_cases h2 : seg = ".."
        · rw [normStep, if_neg h1, if_pos h2] at hs
          exact hst s ((List.dropLast_sublist st).subset hs)
        · rw [normStep, if_neg h1, if_neg h2] at hs
          rcases List.mem_append.mp hs with h3 | h3
          · exact hst s h3
          · have hs2 : s = seg := by simpa using h3
            subst hs2
            push_neg at h1
            exact ⟨h1.1, h1.2, h2, hsl s (List.mem_cons_self s rest)⟩
    intro s hs
    exact ih (normStep st seg) hst2
      (fun x hx => hsl x (List.mem_cons_of_mem seg hx)) s hs

theorem joinSegs_cons (s : String) (r1 : String) (rest : List String) :
    joinSegs (s :: r1 :: rest) = s ++ "/" ++ joinSegs (r1 :: rest) := rfl

theorem splitPathSegs_joinSegs :
    ∀ (segs : List String), segs ≠ [] → (∀ s ∈ segs, '/' ∉ s.toList) →
      splitPathSegs (joinSegs segs) = segs := by
  intro segs
  induction segs with
  | nil => intro h _; exact absurd rfl h
  | cons s rest ih =>
    intro _ hfree
    cases rest with
    | nil =>
      simpa [joinSegs] using
        splitPathSegs_of_no_slash s (hfree s (List.mem_cons_self s []))
    | cons r1 rrest =>
      rw [joinSegs_cons, splitPathSegs_append,
        splitPathSegs_of_no_slash s (hfree s (List.mem_cons_self s _)),
        ih (by simp) (fun x hx => hfree x (List.mem_cons_of_mem s hx))]
      rfl

theorem empty_str_append (s : String) : "" ++ s = s := by
  cases s
  rfl

theorem splitPathSegs_absOfSegs (segs : List String) (hne : segs ≠ [])
    (hfree : ∀ s ∈ segs, '/' ∉ s.toList) :
    splitPathSegs (absOfSegs segs) = "" :: segs := by
  have h : absOfSegs segs = "" ++ "/" ++ joinSegs segs := by
    rw [absOfSegs, empty_str_append]
  rw [h, splitPathSegs_append, splitPathSegs_joinSegs segs hne hfree]
  rfl

theorem toList_absOfSegs (segs : List String) :
    (absOfSegs segs).toList = '/' :: (joinSegs segs).toList := by
  rw [absOfSegs, toList_append]
  have h : ("/" : String).toList = ['/'] := by decide
  rw [h]
  rfl

theorem headIs_absOfSegs (segs : List String) : headIs (absOfSegs segs) '/' = true := by
  simp only [headIs, decide_eq_true_eq]
  rw [toList_absOfSegs]
  rfl

theorem absOfSegs_ne_empty (segs : List String) : absOfSegs segs ≠ "" := by
  intro h
  have := congrArg String.toList h
  rw [toList_absOfSegs] at this
  simp at this

theorem str_append_empty (s : String) : s ++ "" = s := by
  have h := congrArg String.mk (List.append_nil s.toList)
  rw [mk_toList] at h
  exact h

theorem absOfSegs_nil : absOfSegs [] = "/" := by
  rw [absOfSegs, joinSegs, str_append_empty]

theorem headIs_append (a b : String) (h : a.toList ≠ []) (c : Char) :
    headIs (a ++ b) c = headIs a c := by
  simp only [headIs, toList_append]
  cases hl : a.toList with
  | nil => exact absurd hl h
  | cons x xs => simp

theorem parseDir_absOfSegs_concat (xs : List String) (b : String)
    (hxs : ∀ s ∈ xs, '/' ∉ s.toList) (hb : '/' ∉ b.toList) :
    parseDir (absOfSegs (xs ++ [b])) = absOfSegs xs := by
  have hfree : ∀ s ∈ xs ++ [b], '/' ∉ s.toList := by
    intro s hs
    rcases List.mem_append.mp hs with h | h
    · exact hxs s h
    · have : s = b := by simpa using h
      subst this; exact hb
  have hchunks : splitPathSegs (absOfSegs (xs ++ [b])) = "" :: (xs ++ [b]) :=
    splitPathSegs_absOfSegs (xs ++ [b]) (by simp) hfree
  rw [parseDir, hchunks]
  have hlen : ¬ ("" :: (xs ++ [b])).length ≤ 1 := by simp
  rw [if_neg hlen]
  have hdrop : ("" :: (xs ++ [b])).dropLast = "" :: xs := by
    rw [show ("" :: (xs ++ [b])) = ("" :: xs) ++ [b] by simp]
    exact List.dropLast_concat
  rw [hdrop]
  cases xs with
  | nil =>
    rw [absOfSegs_nil]
    simp [joinSegs, headIs_absOfSegs]
  | cons x xrest =>
    have hj : joinSegs ("" :: x :: xrest) = absOfSegs (x :: xrest) := by
      rw [joinSegs_cons, absOfSegs, empty_str_append]
    rw [hj, if_neg]
    intro hcon
    exact absOfSegs_ne_empty (x :: xrest) hcon.1

theorem getLastD_splitPathSegs_concat (xs : List String) (b : String)
    (hxs : ∀ s ∈ xs, '/' ∉ s.toList) (hb : '/' ∉ b.toList) :
    (splitPathSegs (absOfSegs (xs ++ [b]))).getLastD "" = b := by
  have hfree : ∀ s ∈ xs ++ [b], '/' ∉ s.toList := by
    intro s hs
    rcases List.mem_append.mp hs with h | h
    · exact hxs s h
    · have : s = b := by simpa using h
      subst this; exact hb
  rw [splitPathSegs_absOfSegs (xs ++ [b]) (by simp) hfree,
    show ("" :: (xs ++ [b])) = ("" :: xs) ++ [b] by simp]
  exact List.getLastD_concat "" b ("" :: xs)

theorem stripExt_no_dot (b : String) (h : '.' ∉ b.toList) : stripExt b = b := by
  have hne : b ≠ ".." := by
    intro he; subst he; exact h (by decide)
  have hidx : lastIdxOf '.' b.toList = none := by
    rw [lastIdxOf]
    have : b.toList.reverse.findIdx? (· = '.') = none := by
      apply List.findIdx?_eq_none_iff.mpr
      intro x hx
      have hxm : x ∈ b.toList := by simpa using hx
      simp only [decide_eq_false_iff_not]
      intro he
      exact h (he ▸ hxm)
    rw [this]
  rw [stripExt, if_neg hne, hidx]

theorem pathNormalize_clean_abs (segs : List String)
    (h : ∀ s ∈ segs, CleanSeg s) :
    pathNormalize (absOfSegs segs) = absOfSegs segs := by
  cases segs with
  | nil => rw [absOfSegs_nil]; decide
  | cons x xrest =>
    have hfree : ∀ s ∈ x :: xrest, '/' ∉ s.toList := fun s hs => (h s hs).2.2.2
    rw [pathNormalize, if_pos (by rw [headIs_absOfSegs]),
      splitPathSegs_absOfSegs (x :: xrest) (by simp) hfree]
    have hstep : normStep [] "" = [] := by simp [normStep]
    rw [List.foldl_cons, hstep, foldl_normStep_clean (x :: xrest) [] h]
    rfl

theorem joinPath_abs_clean (xs : List String) (l : String)
    (hxs : ∀ s ∈ xs, CleanSeg s) (hl : CleanSeg l) :
    joinPath (absOfSegs xs) l = absOfSegs (xs ++ [l]) := by
  have hfilter : ([absOfSegs xs, l].filter (· ≠ "")) = [absOfSegs xs, l] := by
    simp [List.filter, absOfSegs_ne_empty xs, hl.1]
  rw [joinPath]
  simp only [hfilter]
  rw [if_neg (by simp)]
  have hjoin : joinSegs [absOfSegs xs, l] = absOfSegs xs ++ "/" ++ l := rfl
  have hhead : headIs (absOfSegs xs ++ "/" ++ l) '/' = true := by
    rw [headIs_append (absOfSegs xs ++ "/") l
        (by rw [toList_append, toList_absOfSegs]; simp),
      headIs_append (absOfSegs xs) "/" (by rw [toList_absOfSegs]; simp),
      headIs_absOfSegs]
  rw [hjoin, pathNormalize, if_pos hhead, splitPathSegs_append]
  have hsl : splitPathSegs l = [l] := splitPathSegs_of_no_slash l hl.2.2.2
  rw [hsl]
  cases xs with
  | nil =>
    rw [absOfSegs_nil, show splitPathSegs "/" = ["", ""] by decide]
    have h1 : normStep [] "" = [] := by simp [normStep]
    rw [show (["", ""] ++ [l]) = "" :: "" :: [l] by simp, List.foldl_cons,
      List.foldl_cons, h1, h1, List.foldl_cons, normStep_clean hl, List.foldl_nil]
  | cons x xrest =>
    rw [splitPathSegs_absOfSegs (x :: xrest) (by simp)
      (fun s hs => (hxs s hs).2.2.2)]
    have hcl : ∀ s ∈ (x :: xrest) ++ [l], CleanSeg s := by
      intro s hs
      rcases List.mem_append.mp hs with hm | hm
      · exact hxs s hm
      · have : s = l := by simpa using hm
        subst this; exact hl
    have h1 : normStep [] "" = [] := by simp [normStep]
    rw [show ("" :: (x :: xrest)) ++ [l] = "" :: ((x :: xrest) ++ [l]) by simp,
      List.foldl_cons, h1, foldl_normStep_clean _ [] hcl]
    rfl

/-- Canonicalization of a clean absolute path whose basename has no dot
and is not the index name: the key is the path itself. -/
theorem normalizePathKey_concat_clean (xs : List String) (l : String)
    (hxs : ∀ s ∈ xs, CleanSeg s) (hl : CleanSeg l) (hdot : '.' ∉ l.toList)
    (hidx : l ≠ "index") :
    normalizePathKey (absOfSegs (xs ++ [l])) = absOfSegs (xs ++ [l]) := by
  have hxsf : ∀ s ∈ xs, '/' ∉ s.toList := fun s hs => (hxs s hs).2.2.2
  have hname : parseName (absOfSegs (xs ++ [l])) = l := by
    rw [parseName, getLastD_splitPathSegs_concat xs l hxsf hl.2.2.2,
      stripExt_no_dot l hdot]
  have hcl : ∀ s ∈ xs ++ [l], CleanSeg s := by
    intro s hs
    rcases List.mem_append.mp hs with hm | hm
    · exact hxs s hm
    · have : s = l := by simpa using hm
      subst this; exact hl
  rw [normalizePathKey, hname, if_neg hidx,
    parseDir_absOfSegs_concat xs l hxsf hl.2.2.2,
    joinPath_abs_clean xs l hxs hl, pathNormalize_clean_abs _ hcl]

/-- Canonicalization of a clean absolute path whose basename is the
index name: the key is the directory. -/
theorem normalizePathKey_index_clean (xs : List String)
    (hxs : ∀ s ∈ xs, CleanSeg s) :
    normalizePathKey (absOfSegs (xs ++ ["index"])) = absOfSegs xs := by
  have hxsf : ∀ s ∈ xs, '/' ∉ s.toList := fun s hs => (hxs s hs).2.2.2
  have hname : parseName (absOfSegs (xs ++ ["index"])) = "index" := by
    rw [parseName, getLastD_splitPathSegs_concat xs "index" hxsf (by decide)]
    decide
  rw [normalizePathKey, hname, if_pos rfl,
    parseDir_absOfSegs_concat xs "index" hxsf (by decide),
    pathNormalize_clean_abs xs hxs]

theorem headIs_dotslash (d : String) (c : Char) :
    headIs ("./" ++ d) c = decide ('.' = c) := by
  simp only [headIs]
  rw [toList_append, show ("./" : String).toList = ['.', '/'] from by decide]
  simp

/-- Claim C7 amended: resolved from any absolute containing module path,
the specifiers ./dir and ./dir/index yield the same canonical module key
— and hence identical export-map lookups — provided the final segment of
dir is nonempty, contains no dot, and is not itself the index name (the
counterexample ./a.b, whose basename loses ".b" to extension stripping,
forces the no-dot and non-index restriction). -/
theorem c7_amended_index_equivalence :
    ∀ (p d l : String), headIs p '/' = true →
      (splitPathSegs d).getLast? = some l → l ≠ "" → l ≠ "index" →
      '.' ∉ l.toList →
      getModuleKeyFromSpecifier ("./" ++ d) p =
        getModuleKeyFromSpecifier ("./" ++ d ++ "/index") p ∧
      ∀ (em : NamesSets) (b : String),
        em.find? (fun m => m.base == b &&
          m.file == getModuleKeyFromSpecifier ("./" ++ d) p) =
        em.find? (fun m => m.base == b &&
          m.file == getModuleKeyFromSpecifier ("./" ++ d ++ "/index") p) := by
  intro p d l hp hlast hl1 hl2 hl3
  have hmain : getModuleKeyFromSpecifier ("./" ++ d) p =
      getModuleKeyFromSpecifier ("./" ++ d ++ "/index") p := by
    -- the two specifiers and their head characters
    have hd1 : headIs ("./" ++ d) '.' = true := by rw [headIs_dotslash]; decide
    have hd2 : headIs ("./" ++ d) '/' = false := by rw [headIs_dotslash]; decide
    have hlist1 : ("./" ++ d).toList ≠ [] := by
      rw [toList_append, show ("./" : String).toList = ['.', '/'] from by decide]
      simp
    have hspec2 : "./" ++ d ++ "/index" = ("./" ++ d) ++ "/" ++ "index" := by
      rw [String.append_assoc ("./" ++ d) "/" "index"]
      rfl
    have hd1b : headIs ("./" ++ d ++ "/index") '.' = true := by
      rw [hspec2, headIs_append (("./" ++ d) ++ "/") "index"
          (by rw [toList_append]; intro hcon; simp at hcon),
        headIs_append ("./" ++ d) "/" hlist1, hd1]
    have hd2b : headIs ("./" ++ d ++ "/index") '/' = false := by
      rw [hspec2, headIs_append (("./" ++ d) ++ "/") "index"
          (by rw [toList_append]; intro hcon; simp at hcon),
        headIs_append ("./" ++ d) "/" hlist1, hd2]
    -- split the resolved segment lists
    have hsplit_d : splitPathSegs d = (splitPathSegs d).dropLast ++ [l] := by
      have hne : splitPathSegs d ≠ [] := splitPathSegs_ne_nil d
      have := List.getLast?_eq_getLast (splitPathSegs d) hne
      rw [hlast] at this
      have hl : l = (splitPathSegs d).getLast hne := by
        exact Option.some.inj this
      rw [hl]
      exact (List.dropLast_append_getLast hne).symm
    have hlmem : l ∈ splitPathSegs d := by
      rw [hsplit_d]; simp
    have hlslash : '/' ∉ l.toList := splitPathSegs_no_slash d l hlmem
    have hlclean : CleanSeg l := cleanSeg_of_no_dot hl1 hl3 hlslash
    set D := posixDirname p with hD
    have hsp1 : splitPathSegs (D ++ "/" ++ ("./" ++ d)) =
        (splitPathSegs D ++ ["."] ++ (splitPathSegs d).dropLast) ++ [l] := by
      rw [splitPathSegs_append]
      rw [show ("./" ++ d) = "." ++ "/" ++ d from by
        rw [String.append_assoc]; rfl]
      rw [splitPathSegs_append, show splitPathSegs "." = ["."] from by decide]
      rw [hsplit_d]
      simp
    have hclean0 : ∀ s ∈ List.foldl normStep []
        (splitPathSegs D ++ ["."] ++ (splitPathSegs d).dropLast), CleanSeg s := by
      apply foldl_normStep_preserves_clean
      · intro s hs; simp at hs
      · intro s hs
        rcases List.mem_append.mp hs with hs1 | hs1
        · rcases List.mem_append.mp hs1 with hs2 | hs2
          · exact splitPathSegs_no_slash D s hs2
          · have : s = "." := by simpa using hs2
            subst this; decide
        · exact splitPathSegs_no_slash d s
            ((List.dropLast_sublist (splitPathSegs d)).subset hs1)
    set R0 := List.foldl normStep []
      (splitPathSegs D ++ ["."] ++ (splitPathSegs d).dropLast) with hR0
    have hfold1 : List.foldl normStep [] (splitPathSegs (D ++ "/" ++ ("./" ++ d))) =
        R0 ++ [l] := by
      rw [hsp1, List.foldl_append, List.foldl_cons, List.foldl_nil,
        normStep_clean hlclean]
    -- resolve both sides
    have hres1 : resolvePath D ("./" ++ d) = absOfSegs (R0 ++ [l]) := by
      rw [resolvePath, if_neg (by rw [hd2]; simp), hfold1]
    have hsp2 : splitPathSegs (D ++ "/" ++ ("./" ++ d ++ "/index")) =
        splitPathSegs (D ++ "/" ++ ("./" ++ d)) ++ ["index"] := by
      rw [hspec2,
        show D ++ "/" ++ ("./" ++ d ++ "/" ++ "index") =
          (D ++ "/" ++ ("./" ++ d)) ++ "/" ++ "index" from by
            simp [String.append_assoc],
        splitPathSegs_append, show splitPathSegs "index" = ["index"] from by decide]
    have hfold2 : List.foldl normStep []
        (splitPathSegs (D ++ "/" ++ ("./" ++ d ++ "/index"))) =
        (R0 ++ [l]) ++ ["index"] := by
      rw [hsp2, List.foldl_append, hfold1, List.foldl_cons, List.foldl_nil,
        normStep_clean (show CleanSeg "index" from
          ⟨by decide, by decide, by decide, by decide⟩)]
    have hres2 : resolvePath D ("./" ++ d ++ "/index") =
        absOfSegs ((R0 ++ [l]) ++ ["index"]) := by
      rw [resolvePath, if_neg (by rw [hd2b]; simp), hfold2]
    -- canonical keys
    have hcleanl : ∀ s ∈ R0 ++ [l], CleanSeg s := by
      intro s hs
      rcases List.mem_append.mp hs with hs1 | hs1
      · exact hclean0 s hs1
      · have : s = l := by simpa using hs1
        subst this; exact hlclean
    have hkey1 : normalizePathKey (resolvePath D ("./" ++ d)) =
        absOfSegs (R0 ++ [l]) := by
      rw [hres1]
      exact normalizePathKey_concat_clean R0 l hclean0 hlclean hl3 hl2
    have hkey2 : normalizePathKey (resolvePath D ("./" ++ d ++ "/index")) =
        absOfSegs (R0 ++ [l]) := by
      rw [hres2]
      exact normalizePathKey_index_clean (R0 ++ [l]) hcleanl
    rw [getModuleKeyFromSpecifier, if_pos (by rw [hd1]; simp),
      getModuleKeyFromSpecifier, if_pos (by rw [hd1b]; simp), hkey1, hkey2]
  exact ⟨hmain, fun em b => by rw [hmain]⟩

/-- Witness for c7_amended_index_equivalence: from "/project/main.ts",
the specifiers ./a and ./a/index both resolve to the key "/project/a". -/
theorem c7_amended_index_equivalence_witness :
    getModuleKeyFromSpecifier "./a" "/project/main.ts" =
      getModuleKeyFromSpecifier "./a/index" "/project/main.ts" :=
  (c7_amended_index_equivalence "/project/main.ts" "a" "a" (by decide)
    (by decide) (by decide) (by decide) (by decide)).1

end Dup
